import Mathlib

/-!
Verification of the vorfall event-sourcing core.

This file shallowly embeds the TypeScript sources of the vorfall repository
(packages/eventstore) in Lean 4 and proves properties of the embedded
definitions.

Embedded source files:
* `utils/utilsMongoFilter.ts` — the projection-query filter rewriter.
* `utils/utilsSubject.ts` — the subject grammar (and the looser legacy
  variant of `createSubject`).
* `utils/utilsEventStore.ts` — event grouping and the same-stream check.
* `eventStore/eventStoreFactory.ts` — `processStreamInTransaction` and
  `appendOrCreateStream`.
* `commandHandling/handleCommand.ts` — the command orchestrator.
* `utils/utilsProjections.ts` — the filter construction of `findOneProjection`.

JavaScript values that the filter rewriter and the projection engine
manipulate are modelled by the type `JSVal` below; machine concerns
(BSON encoding, sessions) are abstracted, while control flow, truthiness
(`||`, `?.`) and data flow follow the TypeScript line by line.
-/

namespace Vorfall

/-! ## JavaScript-like values

`JSVal` models the untyped JSON-like values handled by the filter rewriter
and projection states: primitives, `Date` and `RegExp` instances (which the
source distinguishes from plain objects), arrays and plain objects.
Arrays and objects are given by the mutual types `JSArr`/`JSObj` so that
equality is decidable and all recursions below are structural.
An object is a finite list of key/value fields in insertion order, matching
the enumeration order of `Object.entries` in the source.
-/

mutual

inductive JSVal where
  | null : JSVal
  | undef : JSVal
  | boolean (b : Bool) : JSVal
  | num (n : Int) : JSVal
  | str (s : String) : JSVal
  | dateVal (t : Int) : JSVal
  | regexVal (r : String) : JSVal
  | arr (xs : JSArr) : JSVal
  | obj (fields : JSObj) : JSVal
  deriving DecidableEq

inductive JSArr where
  | nil : JSArr
  | cons (hd : JSVal) (tl : JSArr) : JSArr
  deriving DecidableEq

inductive JSObj where
  | nil : JSObj
  | cons (key : String) (val : JSVal) (tl : JSObj) : JSObj
  deriving DecidableEq

end

/-- Convert a Lean list of values to a `JSArr` (for writing literals). -/
def JSArr.ofList : List JSVal → JSArr
  | [] => .nil
  | v :: rest => .cons v (JSArr.ofList rest)

/-- Convert a `JSArr` to a Lean list of values. -/
def JSArr.toList : JSArr → List JSVal
  | .nil => []
  | .cons v rest => v :: rest.toList

/-- Convert a Lean association list to a `JSObj` (for writing literals). -/
def JSObj.ofList : List (String × JSVal) → JSObj
  | [] => .nil
  | (k, v) :: rest => .cons k v (JSObj.ofList rest)

/-- The keys of an object, in insertion order. -/
def JSObj.keys : JSObj → List String
  | .nil => []
  | .cons k _ rest => k :: rest.keys

/-- Induction over the object spine alone (the generic mutual recursor has
several motives; claims below only ever recurse on the entry list). -/
def JSObj.recList {motive : JSObj → Prop} (hnil : motive .nil)
    (hcons : ∀ (k : String) (v : JSVal) (tl : JSObj), motive tl → motive (.cons k v tl)) :
    ∀ o : JSObj, motive o
  | .nil => hnil
  | .cons k v tl => hcons k v tl (JSObj.recList hnil hcons tl)

/-- Induction over the array spine alone. -/
def JSArr.recList {motive : JSArr → Prop} (hnil : motive .nil)
    (hcons : ∀ (v : JSVal) (tl : JSArr), motive tl → motive (.cons v tl)) :
    ∀ o : JSArr, motive o
  | .nil => hnil
  | .cons v tl => hcons v tl (JSArr.recList hnil hcons tl)

/-- The top-level keys of a filter value (empty for non-objects). -/
def topKeys : JSVal → List String
  | .obj fields => fields.keys
  | _ => []

/-- JavaScript truthiness: `null`, `undefined`, `false`, `0` and `""` are
falsy; every other value (including any object, array, `Date` or `RegExp`)
is truthy. -/
def truthy : JSVal → Bool
  | .null => false
  | .undef => false
  | .boolean b => b
  | .num n => n != 0
  | .str s => !s.isEmpty
  | _ => true

/-! ## Filter rewriter — `utils/utilsMongoFilter.ts`

The rewriter rewrites a MongoDB filter so field paths are nested under a
`projections.<name>` slot.  The helpers below are direct translations of
`isLogicalOperator`, `isFieldOperator`, `isPlainObject` and
`requiresTransformation` from the source.
-/

/-- Logical operators carrying arrays of conditions:
`["$and", "$or", "$nor"].includes(key)`. -/
def isLogicalOperator (key : String) : Bool :=
  key = "$and" || key = "$or" || key = "$nor"

/-- Operators working on the current field:
`["$not", "$expr", "$jsonSchema", "$where"].includes(key)`. -/
def isFieldOperator (key : String) : Bool :=
  key = "$not" || key = "$expr" || key = "$jsonSchema" || key = "$where"

/-- Translation of `isPlainObject`: an object that is not `null`, an array,
a `Date` or a `RegExp`.  In this model exactly the `obj` constructor qualifies. -/
def isPlainObject : JSVal → Bool
  | .obj _ => true
  | _ => false

/-- The whitelist of operators that never need field transformation
(`noTransformOps` in the source); `requiresTransformation` is its
negated membership test. -/
def noTransformOps : List String :=
  ["$eq", "$ne", "$gt", "$gte", "$lt", "$lte", "$in", "$nin", "$exists",
   "$type", "$size", "$regex", "$options", "$mod", "$all",
   "$bitsAllClear", "$bitsAllSet", "$bitsAnyClear", "$bitsAnySet"]

def requiresTransformation (operator : String) : Bool :=
  !(noTransformOps.contains operator)

mutual

/-- Translation of `transformFilterForNestedPath(filter, nestedPath)`.

Non-objects (including `null` and arrays) are returned unchanged by the
guards at the top of the source function.  A `Date` or `RegExp` instance
passes those guards (it is a non-null, non-array object) and reaches the
`Object.entries` loop, which sees no enumerable own properties and builds
an empty object.

The source loop assigns one rewritten entry into a fresh object per
input entry; since an actual JS object has pairwise distinct
keys and the rewrite maps distinct keys to distinct keys (bare keys are
injectively prefixed and operator keys, which never contain a dot, are kept),
those assignments build exactly the entry-by-entry map written here. -/
def transformFilterForNestedPath (filter : JSVal) (nestedPath : String) : JSVal :=
  match filter with
  | .obj fields => .obj (transformEntries fields nestedPath)
  | .dateVal _ => .obj .nil
  | .regexVal _ => .obj .nil
  | v => v

/-- The `for (const [key, value] of Object.entries(filter))` loop body. -/
def transformEntries (fields : JSObj) (nestedPath : String) : JSObj :=
  match fields with
  | .nil => .nil
  | .cons key value tl =>
    if isLogicalOperator key then
      .cons key (transformLogicalValue value nestedPath) (transformEntries tl nestedPath)
    else if isFieldOperator key then
      .cons key (transformFilterForNestedPath value nestedPath) (transformEntries tl nestedPath)
    else if isPlainObject value then
      .cons (nestedPath ++ "." ++ key) (transformOperatorValue value nestedPath key)
        (transformEntries tl nestedPath)
    else
      .cons (nestedPath ++ "." ++ key) value (transformEntries tl nestedPath)

/-- The value of a logical operator entry:
`Array.isArray(value) ? value.map(c => transformFilterForNestedPath(c, nestedPath)) : transformFilterForNestedPath(value, nestedPath)`.
The non-array cases inline the body of `transformFilterForNestedPath`
(the call is on the same value, so the unfolding keeps the recursion
structural). -/
def transformLogicalValue (value : JSVal) (nestedPath : String) : JSVal :=
  match value with
  | .arr conds => .arr (transformCondArr conds nestedPath)
  | .obj fields => .obj (transformEntries fields nestedPath)
  | .dateVal _ => .obj .nil
  | .regexVal _ => .obj .nil
  | v => v

/-- Rewrite of each condition of a logical-operator array:
`value.map(condition => transformFilterForNestedPath(condition, nestedPath))`. -/
def transformCondArr (conds : JSArr) (nestedPath : String) : JSArr :=
  match conds with
  | .nil => .nil
  | .cons c rest => .cons (transformFilterForNestedPath c nestedPath) (transformCondArr rest nestedPath)

/-- Translation of `transformOperatorValue(value, nestedPath, originalKey)`.  The
`originalKey` parameter is carried but, as in the source, never used
except to be passed along. -/
def transformOperatorValue (value : JSVal) (nestedPath : String) (originalKey : String) : JSVal :=
  match value with
  | .obj fields => .obj (transformOpEntries fields nestedPath originalKey)
  | v => v

/-- The loop of `transformOperatorValue` over `Object.entries(value)`. -/
def transformOpEntries (fields : JSObj) (nestedPath : String) (originalKey : String) : JSObj :=
  match fields with
  | .nil => .nil
  | .cons opKey opValue tl =>
    .cons opKey
      (if opKey = "$regex" || opKey = "$options" || opKey = "$elemMatch"
          || !requiresTransformation opKey then
        opValue
      else
        transformOpOperand opValue nestedPath originalKey)
      (transformOpEntries tl nestedPath originalKey)

/-- The operand of an operator that is not whitelisted: arrays have their
plain-object items rewritten as sub-filters, plain objects are recursed
into via `transformOperatorValue` (inlined one step to keep the recursion
structural), everything else is copied. -/
def transformOpOperand (opValue : JSVal) (nestedPath : String) (originalKey : String) : JSVal :=
  match opValue with
  | .arr items => .arr (transformOpArr items nestedPath)
  | .obj innerFields => .obj (transformOpEntries innerFields nestedPath originalKey)
  | v => v

/-- Per-item rewrite of an operator array:
`opValue.map(item => isPlainObject(item) ? transformFilterForNestedPath(item, nestedPath) : item)`. -/
def transformOpArr (items : JSArr) (nestedPath : String) : JSArr :=
  match items with
  | .nil => .nil
  | .cons item rest =>
    .cons (if isPlainObject item then transformFilterForNestedPath item nestedPath else item)
      (transformOpArr rest nestedPath)

end

/-! ## Subject grammar — `utils/utilsSubject.ts`

The subject regexes are `^[a-z0-9-]+(?:\/[a-z0-9-]+)+$/i` (strict, at
least two segments) and, in the legacy module variant,
`^[a-z0-9-]+(?:\/[a-z0-9-]+)*$/i` (one or more segments).  Such a regex
holds of `s` exactly when splitting `s` on `'/'` yields the required
number of segments, each non-empty and drawn from `[A-Za-z0-9-]`.  We
model the split at the character level (`String.split('/')` semantics:
every separator splits, empty parts are preserved). -/

/-- The character class `[a-z0-9-]` with the `i` flag: ASCII letters,
digits and hyphen. -/
def isSubjectChar (c : Char) : Bool :=
  ('a' ≤ c && c ≤ 'z') || ('A' ≤ c && c ≤ 'Z') || ('0' ≤ c && c ≤ '9') || c = '-'

/-- Character-level model of the split on the slash separator (as in
JavaScript string split): splits at every separator, preserving empty
parts.  Never returns the empty list. -/
def splitSlash : List Char → List (List Char)
  | [] => [[]]
  | c :: rest =>
    if c = '/' then [] :: splitSlash rest
    else
      match splitSlash rest with
      | [] => [[c]]
      | p :: ps => (c :: p) :: ps

/-- Character-level model of joining parts with the slash separator. -/
def joinSlash : List (List Char) → List Char
  | [] => []
  | [p] => p
  | p :: ps => p ++ '/' :: joinSlash ps

/-- Errors raised by the embedded store operations.  The source throws
`InvalidSubjectFormatError` or a generic `Error` with the recorded
message. -/
inductive StoreError where
  | invalidSubjectFormat (subject : String) : StoreError
  | emptyBatch (message : String) : StoreError
  deriving DecidableEq

deriving instance DecidableEq for Except

/-- Semantics of `SUBJECT_REGEX.test(s)`: at least two slash-separated
segments, each a non-empty run of `[A-Za-z0-9-]`. -/
def subjectRegexTest (s : String) : Bool :=
  let parts := splitSlash s.data
  decide (2 ≤ parts.length) && parts.all (fun p => !p.isEmpty && p.all isSubjectChar)

/-- Translation of `createSubject(s)` from `utils/utilsSubject.ts`: rejects (throws)
unless `s` is truthy and matches `SUBJECT_REGEX`. -/
def createSubject (s : String) : Except StoreError String :=
  if s = "" || !subjectRegexTest s then
    .error (.invalidSubjectFormat s)
  else
    .ok s

/-- The legacy `STREAM_SUBJECT_REGEX.test(s)` of the unnamed module
variant: one or more segments. -/
def legacySubjectRegexTest (s : String) : Bool :=
  let parts := splitSlash s.data
  decide (1 ≤ parts.length) && parts.all (fun p => !p.isEmpty && p.all isSubjectChar)

/-- Translation of `createSubject(s)` from the legacy module variant (accepts
single-segment subjects). -/
def legacyCreateSubject (s : String) : Except StoreError String :=
  if s = "" || !legacySubjectRegexTest s then
    .error (.invalidSubjectFormat s)
  else
    .ok s

/-- Translation of `getStreamSubjectFromSubject(subject)`: split on the slash; fewer than two
parts throws; otherwise the first two parts joined by `'/'`. -/
def getStreamSubjectFromSubject (subject : String) : Except StoreError String :=
  let parts := splitSlash subject.data
  if parts.length < 2 then
    .error (.invalidSubjectFormat subject)
  else
    .ok (String.mk (joinSlash (parts.take 2)))

/-- Translation of `getCollectionNameFromSubject(subject)`: the first slash-separated
part; throws when the parts array is empty or its first entry is falsy
(the empty string). -/
def getCollectionNameFromSubject (subject : String) : Except StoreError String :=
  match splitSlash subject.data with
  | [] => .error (.invalidSubjectFormat subject)
  | p :: _ =>
    if p.isEmpty then .error (.invalidSubjectFormat subject)
    else .ok (String.mk p)

/-! ## Domain events, grouping — `utils/utilsEventStore.ts` -/

/-- A domain event.  Only the fields the embedded operations consume are
carried (`type` drives projection dispatch, `subject` drives grouping);
the payload is an arbitrary JS value. -/
structure DomainEvent where
  id : String
  type : String
  subject : String
  data : JSVal
  deriving DecidableEq

/-- Tail of `eventsHaveSameStreamSubject`: `events.every(...)`, where each
iteration parses the subject (which can throw) and compares stream
subjects; `every` short-circuits on the first mismatch. -/
def allSameStreamSubject (target : String) : List DomainEvent → Except StoreError Bool
  | [] => .ok true
  | e :: rest => do
    let eventSubject ← createSubject e.subject
    let ss ← getStreamSubjectFromSubject eventSubject
    if ss = target then allSameStreamSubject target rest else .ok false

/-- Translation of `eventsHaveSameStreamSubject(events)`: throws on an empty array,
otherwise true iff the subject of every event yields the stream subject of
the first event. -/
def eventsHaveSameStreamSubject (events : List DomainEvent) : Except StoreError Bool :=
  match events with
  | [] => .error (.emptyBatch "Cannot check stream subject for an empty array of events")
  | firstEvent :: _ => do
    let firstEventSubject ← createSubject firstEvent.subject
    let firstStreamSubject ← getStreamSubjectFromSubject firstEventSubject
    allSameStreamSubject firstStreamSubject events

/-- One step of the loop of `groupEventsByStreamSubject`: append the event
to the bucket of its stream, creating the bucket at the end on first
appearance (a JS `Map` preserves insertion order). -/
def insertEventIntoGroups (groups : List (String × List DomainEvent)) (key : String)
    (e : DomainEvent) : List (String × List DomainEvent) :=
  if groups.any (fun g => g.1 = key) then
    groups.map (fun g => if g.1 = key then (g.1, g.2 ++ [e]) else g)
  else
    groups ++ [(key, [e])]

/-- The loop of `groupEventsByStreamSubject`; `getStreamSubjectFromSubject`
can throw, aborting the grouping. -/
def groupEventsGo (acc : List (String × List DomainEvent)) :
    List DomainEvent → Except StoreError (List (String × List DomainEvent))
  | [] => .ok acc
  | e :: rest =>
    match getStreamSubjectFromSubject e.subject with
    | .error err => .error err
    | .ok streamSubject => groupEventsGo (insertEventIntoGroups acc streamSubject e) rest

/-- Translation of `groupEventsByStreamSubject(events)`: partition events into ordered
buckets keyed by stream subject, preserving first-appearance order of keys
and caller order within each bucket. -/
def groupEventsByStreamSubject (events : List DomainEvent) :
    Except StoreError (List (String × List DomainEvent)) :=
  groupEventsGo [] events

/-! ## Projections and the stream store — `eventStore/eventStoreFactory.ts` -/

/-- A projection definition `{name, canHandle, evolve, initialState}`.
`initialState` is a nullary pure function in the source; its (fixed)
return value is carried directly. -/
structure ProjectionDefinition where
  name : String
  canHandle : List String
  evolve : JSVal → DomainEvent → JSVal
  initialState : JSVal

/-- Look up a projection slot by name (first match), as
`result?.projections?.[name]` does. -/
def lookupSlot : List (String × JSVal) → String → Option JSVal
  | [], _ => none
  | s :: rest, name => if s.1 = name then some s.2 else lookupSlot rest name

/-- Model of a `$set` of one projection field on the projections map: overwrite the
existing field in place, or append a new one. -/
def setSlot (slots : List (String × JSVal)) (name : String) (v : JSVal) :
    List (String × JSVal) :=
  if slots.any (fun s => s.1 = name) then
    slots.map (fun s => if s.1 = name then (s.1, v) else s)
  else
    slots ++ [(name, v)]

/-- Apply a list of `$set` updates in order. -/
def applySetUpdates (slots : List (String × JSVal)) :
    List (String × JSVal) → List (String × JSVal)
  | [] => slots
  | (name, v) :: rest => applySetUpdates (setSlot slots name v) rest

/-- A stream document.  `streamId` and the `metadata` timestamps are
opaque values supplied by the caller of the append protocol (the source
draws them from `randomUUID()` and `new Date()`). -/
structure StreamDoc where
  streamId : Nat
  streamSubject : String
  events : List DomainEvent
  createdAt : Nat
  updatedAt : Nat
  projections : List (String × JSVal)
  deriving DecidableEq

/-- JavaScript disjunction on an optional slot value: `||` takes the stored value
only when it is truthy (absence reads as `undefined`, which is falsy). -/
def jsOrElse (slot : Option JSVal) (dflt : JSVal) : JSVal :=
  match slot with
  | some v => if truthy v then v else dflt
  | none => dflt

/-- Translation of `processStreamInTransaction(streamSubject, events, collection, projections, session)`.

`doc?` is the document currently stored for `streamSubject` (`none` when
the upsert inserts).  The first `findOneAndUpdate` pushes the events and
maintains metadata; when the registry is non-empty a second
`findOneAndUpdate` `$set`s one slot per applicable projection, each slot
computed by folding `evolve` over **all** events of the batch of this stream,
starting from `result?.projections?.[name] || initialState()`. -/
def processStreamInTransaction (now freshId : Nat) (streamSubject : String)
    (events : List DomainEvent) (doc? : Option StreamDoc)
    (projections : List ProjectionDefinition) : StreamDoc :=
  let afterPush : StreamDoc :=
    match doc? with
    | none =>
      { streamId := freshId, streamSubject := streamSubject, events := events,
        createdAt := now, updatedAt := now, projections := [] }
    | some d => { d with events := d.events ++ events, updatedAt := now }
  if projections.isEmpty then afterPush
  else
    let eventTypes := events.map (fun e => e.type)
    let applicableProjections :=
      projections.filter (fun p => p.canHandle.any (fun t => eventTypes.contains t))
    let setUpdates :=
      applicableProjections.map (fun p =>
        (p.name, events.foldl p.evolve (jsOrElse (lookupSlot afterPush.projections p.name) p.initialState)))
    { afterPush with projections := applySetUpdates afterPush.projections setUpdates }

/-- Database operations issued by the append protocol, in order. -/
inductive DbOp where
  | startSession : DbOp
  | startTransaction : DbOp
  | findOneAndUpdate (collection streamSubject : String) : DbOp
  | commitTransaction : DbOp
  | abortTransaction : DbOp
  | endSession : DbOp
  deriving DecidableEq

/-- The `findOneAndUpdate` calls `processStreamInTransaction` issues: the
event push, plus the projection `$set` when the registry is non-empty. -/
def processStreamOps (projections : List ProjectionDefinition)
    (collection streamSubject : String) : List DbOp :=
  if projections.isEmpty then [.findOneAndUpdate collection streamSubject]
  else [.findOneAndUpdate collection streamSubject, .findOneAndUpdate collection streamSubject]

/-- The database of the store: collections by name, each a list of stream
documents (at most one per stream subject). -/
abbrev EventStoreState := List (String × List StreamDoc)

/-- The documents of a collection (a missing collection reads as empty). -/
def getColl (st : EventStoreState) (name : String) : List StreamDoc :=
  match st.find? (fun c => c.1 = name) with
  | some c => c.2
  | none => []

/-- Replace the documents of a collection (inserting the collection if new). -/
def putColl (st : EventStoreState) (name : String) (docs : List StreamDoc) :
    EventStoreState :=
  if st.any (fun c => c.1 = name) then
    st.map (fun c => if c.1 = name then (c.1, docs) else c)
  else
    st ++ [(name, docs)]

/-- Model of the `findOne` by stream subject within a collection. -/
def findDocIn (docs : List StreamDoc) (streamSubject : String) : Option StreamDoc :=
  docs.find? (fun d => d.streamSubject = streamSubject)

/-- Upsert a document into a collection, keyed by its stream subject. -/
def putDocIn (docs : List StreamDoc) (doc : StreamDoc) : List StreamDoc :=
  if docs.any (fun d => d.streamSubject = doc.streamSubject) then
    docs.map (fun d => if d.streamSubject = doc.streamSubject then doc else d)
  else
    docs ++ [doc]

/-- Result of `appendOrCreateStream`. -/
structure AppendResult where
  streams : List StreamDoc
  totalEventsAppended : Nat
  streamSubjects : List String
  deriving DecidableEq

/-- The `for (const [streamSubject, streamEvents] of eventGroups)` loop of
the multi-stream transaction: resolve the collection (its name is derived
from the subject and can throw, aborting the transaction), upsert the
stream document, and collect results.  `uuidSeed` supplies one fresh
`streamId` per created stream. -/
def runGroups (projections : List ProjectionDefinition) (now : Nat) (uuidSeed : Nat) :
    List (String × List DomainEvent) → EventStoreState →
    Except StoreError (List StreamDoc × EventStoreState) × List DbOp
  | [], st => (.ok ([], st), [])
  | (streamSubject, streamEvents) :: rest, st =>
    match getCollectionNameFromSubject streamSubject with
    | .error e => (.error e, [])
    | .ok collName =>
      let doc? := findDocIn (getColl st collName) streamSubject
      let doc := processStreamInTransaction now uuidSeed streamSubject streamEvents doc? projections
      let st' := putColl st collName (putDocIn (getColl st collName) doc)
      let ops := processStreamOps projections collName streamSubject
      match runGroups projections now (uuidSeed + 1) rest st' with
      | (.ok (docs, st2), ops2) => (.ok (doc :: docs, st2), ops ++ ops2)
      | (.error e, ops2) => (.error e, ops ++ ops2)

/-- Translation of `appendOrCreateStream(events)`.

Returns the outcome of the call, the resulting database state (unchanged on
failure: the surrounding transaction aborts), and the ordered database
operations issued.  The empty-batch guard and the grouping run before any
session is opened; a single group takes the fast path of the source
(lines 183–211), which performs the same work on the lone entry. -/
def appendOrCreateStream (projections : List ProjectionDefinition) (now uuidSeed : Nat)
    (events : List DomainEvent) (st : EventStoreState) :
    Except StoreError AppendResult × EventStoreState × List DbOp :=
  if events.isEmpty then
    (.error (.emptyBatch "Cannot process an empty array of events"), st, [])
  else
    match groupEventsByStreamSubject events with
    | .error e => (.error e, st, [])
    | .ok eventGroups =>
      match eventGroups with
      | [(streamSubject, streamEvents)] =>
        match getCollectionNameFromSubject streamSubject with
        | .error e => (.error e, st, [])
        | .ok collName =>
          let doc? := findDocIn (getColl st collName) streamSubject
          let doc := processStreamInTransaction now uuidSeed streamSubject streamEvents doc? projections
          let st' := putColl st collName (putDocIn (getColl st collName) doc)
          (.ok { streams := [doc], totalEventsAppended := events.length,
                 streamSubjects := [streamSubject] },
           st',
           [.startSession, .startTransaction] ++ processStreamOps projections collName streamSubject
             ++ [.commitTransaction, .endSession])
      | groups =>
        match runGroups projections now uuidSeed groups st with
        | (.ok (docs, st'), ops) =>
          (.ok { streams := docs, totalEventsAppended := events.length,
                 streamSubjects := groups.map (fun g => g.1) },
           st',
           [.startSession, .startTransaction] ++ ops ++ [.commitTransaction, .endSession])
        | (.error e, ops) =>
          (.error e, st, [.startSession, .startTransaction] ++ ops ++ [.abortTransaction, .endSession])

/-! ## Command orchestrator — `commandHandling/handleCommand.ts`

`handleCommand` receives the event store as an argument; the embedding
abstracts the store behind the two functions the orchestrator calls.  The
return value of the command handler is untyped in the source (`any`), so it is
modelled as a `JSVal`; the orchestrator normalizes it with
`Array.isArray(result) ? result : [result]` and hands the normalized list
straight to `appendOrCreateStream`. -/

/-- Per-stream aggregation request: `{streamSubject, evolve, initialState}`. -/
structure CommandStreamConfig where
  streamSubject : String
  evolve : JSVal → JSVal → JSVal
  initialState : JSVal

/-- Normalization `Array.isArray(result) ? result : [result]`. -/
def normalizeHandlerResult (result : JSVal) : List JSVal :=
  match result with
  | .arr xs => xs.toList
  | v => [v]

/-- Insert into the ordered `states` map (JS `Map.set`). -/
def setState (states : List (String × JSVal)) (key : String) (v : JSVal) :
    List (String × JSVal) :=
  if states.any (fun s => s.1 = key) then
    states.map (fun s => if s.1 = key then (s.1, v) else s)
  else
    states ++ [(key, v)]

/-- Translation of `handleCommand(options)`: aggregate each declared stream in order,
invoke the command handler on the command and the aggregated states,
normalize its result, and return the outcome of `appendOrCreateStream` on the
normalized sequence. -/
def handleCommand
    (aggregateStream : String → (JSVal → JSVal → JSVal) → JSVal → JSVal)
    (appendOrCreateStreamFn : List JSVal → Except StoreError AppendResult)
    (streams : List CommandStreamConfig)
    (commandHandlerFunction : JSVal → List (String × JSVal) → JSVal)
    (command : JSVal) : Except StoreError AppendResult :=
  let aggregatedStreamStates :=
    streams.foldl
      (fun states stream =>
        setState states stream.streamSubject
          (aggregateStream stream.streamSubject stream.evolve stream.initialState))
      []
  let result := commandHandlerFunction command aggregatedStreamStates
  let eventsToAppend := normalizeHandlerResult result
  appendOrCreateStreamFn eventsToAppend

/-! ## Projection queries — `utils/utilsProjections.ts` -/

/-- The argument object of `findOneProjection`:
`{projectionName, projectionQuery?, matchAll?}` (an absent `matchAll`
reads as `undefined`, i.e. `false`). -/
structure ProjectionQueryArg where
  projectionName : String
  projectionQuery : Option JSVal
  matchAll : Bool

/-- The filter `findOneProjection` passes to `findOne`: start from
`[{streamSubject: {$eq: X}}, {projections.<name>: {$exists: true}}]`;
when a user query is supplied, push its rewrite under
`projections.<name>` and, only then, splice away the stream-subject
clause if `matchAll` is set; wrap the list in `$and`. -/
def buildFindOneProjectionFilter (streamSubject : String) (q : ProjectionQueryArg) : JSVal :=
  let filters : List JSVal :=
    [.obj (.cons "streamSubject" (.obj (.cons "$eq" (.str streamSubject) .nil)) .nil),
     .obj (.cons ("projections." ++ q.projectionName)
        (.obj (.cons "$exists" (.boolean true) .nil)) .nil)]
  match q.projectionQuery with
  | some projectionQuery =>
    let queryTransformed :=
      transformFilterForNestedPath projectionQuery ("projections." ++ q.projectionName)
    let filters := filters ++ [queryTransformed]
    let filters := if q.matchAll then filters.drop 1 else filters
    .obj (.cons "$and" (.arr (JSArr.ofList filters)) .nil)
  | none => .obj (.cons "$and" (.arr (JSArr.ofList filters)) .nil)

/-- Translation of `findOneProjection(eventStore, streamSubject, query)`: builds the
filter above and returns what the `findOne` of the collection yields for it
(the matching stream document or null). -/
def findOneProjection (findOne : JSVal → Option StreamDoc) (streamSubject : String)
    (q : ProjectionQueryArg) : Option StreamDoc :=
  findOne (buildFindOneProjectionFilter streamSubject q)

/-! ## Derived and specification-side definitions

The definitions in this subsection are not translations of further source
code: they restate, in the words of the spec, quantities the claims compare the
source functions against (a total stream-subject map, first-appearance
deduplication, and the claimed per-projection fold). -/

/-- The stream subject of a subject as a total function: the first two
`'/'`-separated parts, joined by `'/'`.  Agrees with
`getStreamSubjectFromSubject` whenever that succeeds. -/
def streamSubjectOfSubject (s : String) : String :=
  String.mk (joinSlash ((splitSlash s.data).take 2))

/-- Statement following the words of the spec: `distinctStreamSubjectsIn(B)` — the
distinct stream subjects of the events of the batch, in first-appearance
order. -/
def distinctStreamSubjectsIn (events : List DomainEvent) : List String :=
  (events.map fun e => streamSubjectOfSubject e.subject).foldl
    (fun acc x => if acc.contains x then acc else acc ++ [x]) []

/-- The projection slots of the stored document — what
`result?.projections` reads after the event push (empty when the upsert
inserted a fresh document). -/
def storedProjections : Option StreamDoc → List (String × JSVal)
  | some d => d.projections
  | none => []

/-- Statement following the words of claim C1: the fold of `evolve` over only the
*applicable* events (those whose type is in `canHandle`), starting from
the previously stored slot value, or from `initialState` when no slot
value is present. -/
def claimedProjectionSlot (p : ProjectionDefinition) (events : List DomainEvent)
    (doc? : Option StreamDoc) : JSVal :=
  let prior :=
    match doc? with
    | some d => lookupSlot d.projections p.name
    | none => none
  (events.filter fun e => p.canHandle.contains e.type).foldl p.evolve
    (match prior with
     | some v => v
     | none => p.initialState)

/-- Statement following the words of claim C8 as amended: the declarative shape of the
`findOneProjection` filter — the stream-subject clause is dropped exactly
when `matchAll` is set *and* a user query is supplied. -/
def specFindOneFilter (streamSubject : String) (q : ProjectionQueryArg) : JSVal :=
  let eqClause : JSVal :=
    .obj (.cons "streamSubject" (.obj (.cons "$eq" (.str streamSubject) .nil)) .nil)
  let existsClause : JSVal :=
    .obj (.cons ("projections." ++ q.projectionName)
      (.obj (.cons "$exists" (.boolean true) .nil)) .nil)
  match q.projectionQuery with
  | none => .obj (.cons "$and" (.arr (JSArr.ofList [eqClause, existsClause])) .nil)
  | some pq =>
    let rewritten := transformFilterForNestedPath pq ("projections." ++ q.projectionName)
    if q.matchAll then
      .obj (.cons "$and" (.arr (JSArr.ofList [existsClause, rewritten])) .nil)
    else
      .obj (.cons "$and" (.arr (JSArr.ofList [eqClause, existsClause, rewritten])) .nil)

/-- A concrete event-counting `evolve` for the closed instances below
(mirrors the `TestProjection` of the repository tests). -/
def countingEvolve : JSVal → DomainEvent → JSVal
  | .num n, _ => .num (n + 1)
  | _, _ => .num 0

/-- A concrete projection handling only events of type `"a"`, with a
truthy initial state. -/
def sampleProjection : ProjectionDefinition :=
  { name := "P", canHandle := ["a"], evolve := countingEvolve, initialState := .num 5 }

/-- A concrete event of type `"a"` on stream `user/1`. -/
def sampleEventA : DomainEvent :=
  { id := "1", type := "a", subject := "user/1/x", data := .null }

/-- A concrete event of type `"b"` on stream `user/1`. -/
def sampleEventB : DomainEvent :=
  { id := "2", type := "b", subject := "user/1/y", data := .null }

/-! ## Lemmas about the character-level split -/

theorem splitSlash_nil : splitSlash [] = [[]] := rfl

theorem splitSlash_cons_slash (rest : List Char) :
    splitSlash ('/' :: rest) = [] :: splitSlash rest := by
  simp [splitSlash]

theorem splitSlash_ne_nil : ∀ cs : List Char, splitSlash cs ≠ []
  | [] => by simp [splitSlash]
  | c :: rest => by
    simp only [splitSlash]
    split
    · simp
    · split <;> simp

theorem splitSlash_cons_ne {c : Char} (rest : List Char) (hc : c ≠ '/')
    {q : List Char} {qs : List (List Char)} (hq : splitSlash rest = q :: qs) :
    splitSlash (c :: rest) = (c :: q) :: qs := by
  simp [splitSlash, hc, hq]

theorem slash_not_mem_of_mem_splitSlash :
    ∀ (cs : List Char) (p : List Char), p ∈ splitSlash cs → '/' ∉ p := by
  intro cs
  induction cs with
  | nil =>
    intro p hp
    rw [splitSlash_nil, List.mem_singleton] at hp
    simp [hp]
  | cons c rest ih =>
    intro p hp
    by_cases hc : c = '/'
    · subst hc
      rw [splitSlash_cons_slash, List.mem_cons] at hp
      rcases hp with h | h
      · simp [h]
      · exact ih p h
    · cases hq : splitSlash rest with
      | nil => exact absurd hq (splitSlash_ne_nil rest)
      | cons q qs =>
        rw [splitSlash_cons_ne rest hc hq, List.mem_cons] at hp
        rcases hp with h | h
        · subst h
          intro hmem
          rcases List.mem_cons.mp hmem with h | h
          · exact hc h.symm
          · exact ih q (by rw [hq]; exact List.mem_cons_self q qs) h
        · exact ih p (by rw [hq]; exact List.mem_cons.mpr (Or.inr h))

theorem exists_part_of_mem :
    ∀ (cs : List Char) (c : Char), c ∈ cs → c ≠ '/' →
      ∃ p ∈ splitSlash cs, c ∈ p := by
  intro cs
  induction cs with
  | nil => intro c hc; simp at hc
  | cons c' rest ih =>
    intro c hc hslash
    rcases List.mem_cons.mp hc with h | h
    · subst h
      cases hq : splitSlash rest with
      | nil => exact absurd hq (splitSlash_ne_nil rest)
      | cons q qs =>
        rw [splitSlash_cons_ne rest hslash hq]
        exact ⟨c :: q, List.mem_cons_self _ _, List.mem_cons_self _ _⟩
    · rcases ih c h hslash with ⟨p, hp, hcp⟩
      by_cases hc' : c' = '/'
      · subst hc'
        rw [splitSlash_cons_slash]
        exact ⟨p, List.mem_cons.mpr (Or.inr hp), hcp⟩
      · cases hq : splitSlash rest with
        | nil => exact absurd hq (splitSlash_ne_nil rest)
        | cons q qs =>
          rw [splitSlash_cons_ne rest hc' hq]
          rw [hq] at hp
          rcases List.mem_cons.mp hp with h' | h'
          · subst h'
            exact ⟨c' :: p, List.mem_cons_self _ _, List.mem_cons.mpr (Or.inr hcp)⟩
          · exact ⟨p, List.mem_cons.mpr (Or.inr h'), hcp⟩

theorem splitSlash_of_no_slash :
    ∀ (p : List Char), '/' ∉ p → splitSlash p = [p] := by
  intro p
  induction p with
  | nil => intro _; exact splitSlash_nil
  | cons c rest ih =>
    intro h
    have hc : c ≠ '/' := fun hc => h (hc ▸ List.mem_cons_self _ _)
    have hr : '/' ∉ rest := fun hr => h (List.mem_cons.mpr (Or.inr hr))
    exact splitSlash_cons_ne rest hc (ih hr)

theorem splitSlash_append_slash :
    ∀ (p t : List Char), '/' ∉ p → splitSlash (p ++ '/' :: t) = p :: splitSlash t := by
  intro p
  induction p with
  | nil => intro t _; rw [List.nil_append, splitSlash_cons_slash]
  | cons c rest ih =>
    intro t h
    have hc : c ≠ '/' := fun hc => h (hc ▸ List.mem_cons_self _ _)
    have hr : '/' ∉ rest := fun hr => h (List.mem_cons.mpr (Or.inr hr))
    rw [List.cons_append]
    exact splitSlash_cons_ne _ hc (ih t hr)

theorem joinSlash_cons (p : List Char) (ps : List (List Char)) (h : ps ≠ []) :
    joinSlash (p :: ps) = p ++ '/' :: joinSlash ps := by
  cases ps with
  | nil => exact absurd rfl h
  | cons q qs => rfl

theorem joinSlash_splitSlash : ∀ cs : List Char, joinSlash (splitSlash cs) = cs := by
  intro cs
  induction cs with
  | nil => rw [splitSlash_nil]; rfl
  | cons c rest ih =>
    by_cases hc : c = '/'
    · subst hc
      rw [splitSlash_cons_slash, joinSlash_cons _ _ (splitSlash_ne_nil rest), ih,
        List.nil_append]
    · cases hq : splitSlash rest with
      | nil => exact absurd hq (splitSlash_ne_nil rest)
      | cons q qs =>
        rw [hq] at ih
        rw [splitSlash_cons_ne rest hc hq]
        cases qs with
        | nil =>
          simp only [joinSlash] at ih ⊢
          rw [ih]
        | cons q' qs' =>
          rw [joinSlash_cons _ _ (by simp)] at ih
          rw [joinSlash_cons _ _ (by simp), List.cons_append, ih]

theorem splitSlash_joinSlash :
    ∀ (pss : List (List Char)), pss ≠ [] → (∀ p ∈ pss, '/' ∉ p) →
      splitSlash (joinSlash pss) = pss := by
  intro pss
  induction pss with
  | nil => intro h; exact absurd rfl h
  | cons p ps ih =>
    intro _ hall
    cases ps with
    | nil =>
      simp only [joinSlash]
      exact splitSlash_of_no_slash p (hall p (List.mem_cons_self _ _))
    | cons q qs =>
      rw [joinSlash_cons _ _ (by simp),
        splitSlash_append_slash _ _ (hall p (List.mem_cons_self _ _)),
        ih (by simp) (fun r hr => hall r (List.mem_cons.mpr (Or.inr hr)))]

/-- If the remainder after a `'/'` splits with an empty part somewhere, so
does the whole string (fuel `n` bounds the prefix length). -/
theorem empty_mem_splitSlash_append :
    ∀ (n : Nat) (a u : List Char), a.length ≤ n → [] ∈ splitSlash u →
      [] ∈ splitSlash (a ++ '/' :: u) := by
  intro n
  induction n with
  | zero =>
    intro a u ha _
    have : a = [] := List.length_eq_zero.mp (Nat.le_zero.mp ha)
    subst this
    rw [List.nil_append, splitSlash_cons_slash]
    exact List.mem_cons_self _ _
  | succ n ih =>
    intro a u ha hu
    cases a with
    | nil =>
      rw [List.nil_append, splitSlash_cons_slash]
      exact List.mem_cons_self _ _
    | cons c a' =>
      by_cases hc : c = '/'
      · subst hc
        rw [List.cons_append, splitSlash_cons_slash]
        exact List.mem_cons_self _ _
      · have ha' : a'.length ≤ n := by
          simp only [List.length_cons] at ha
          omega
        have hmem : [] ∈ splitSlash (a' ++ '/' :: u) := ih a' u ha' hu
        cases hq : splitSlash (a' ++ '/' :: u) with
        | nil => exact absurd hq (splitSlash_ne_nil _)
        | cons q qs =>
          rw [List.cons_append, splitSlash_cons_ne _ hc hq]
          rw [hq] at hmem
          rcases List.mem_cons.mp hmem with h | h
          · -- the head part is empty, so the remainder starts with a slash
            cases a' with
            | nil =>
              rw [List.nil_append, splitSlash_cons_slash] at hq
              have hqs : qs = splitSlash u := (List.cons_eq_cons.mp hq).2.symm
              exact List.mem_cons.mpr (Or.inr (hqs ▸ hu))
            | cons c2 a3 =>
              by_cases hc2 : c2 = '/'
              · subst hc2
                rw [List.cons_append, splitSlash_cons_slash] at hq
                have hqs : qs = splitSlash (a3 ++ '/' :: u) :=
                  (List.cons_eq_cons.mp hq).2.symm
                have ha3 : a3.length ≤ n := by
                  simp only [List.length_cons] at ha'
                  omega
                exact List.mem_cons.mpr (Or.inr (hqs ▸ ih a3 u ha3 hu))
              · exfalso
                cases hq2 : splitSlash (a3 ++ '/' :: u) with
                | nil => exact absurd hq2 (splitSlash_ne_nil _)
                | cons q2 qs2 =>
                  rw [List.cons_append, splitSlash_cons_ne _ hc2 hq2] at hq
                  have h1 := (List.cons_eq_cons.mp hq).1
                  rw [← h] at h1
                  exact List.cons_ne_nil _ _ h1
          · exact List.mem_cons.mpr (Or.inr h)

/-! ## Lemmas about the subject grammar -/

theorem subjectRegexTest_iff (s : String) :
    subjectRegexTest s = true ↔
      2 ≤ (splitSlash s.data).length
        ∧ ∀ p ∈ splitSlash s.data, p ≠ [] ∧ ∀ c ∈ p, isSubjectChar c = true := by
  simp only [subjectRegexTest, Bool.and_eq_true, decide_eq_true_eq, List.all_eq_true,
    Bool.not_eq_true', List.isEmpty_eq_false]

theorem legacySubjectRegexTest_iff (s : String) :
    legacySubjectRegexTest s = true ↔
      1 ≤ (splitSlash s.data).length
        ∧ ∀ p ∈ splitSlash s.data, p ≠ [] ∧ ∀ c ∈ p, isSubjectChar c = true := by
  simp only [legacySubjectRegexTest, Bool.and_eq_true, decide_eq_true_eq, List.all_eq_true,
    Bool.not_eq_true', List.isEmpty_eq_false]

theorem createSubject_error_of_test_false {s : String} (h : subjectRegexTest s = false) :
    createSubject s = .error (.invalidSubjectFormat s) := by
  simp [createSubject, h]

theorem legacyCreateSubject_error_of_test_false {s : String}
    (h : legacySubjectRegexTest s = false) :
    legacyCreateSubject s = .error (.invalidSubjectFormat s) := by
  simp [legacyCreateSubject, h]

theorem createSubject_ok_test {s : String} (h : createSubject s = .ok s) :
    subjectRegexTest s = true := by
  cases hb : subjectRegexTest s with
  | false => rw [createSubject_error_of_test_false hb] at h; cases h
  | true => rfl

/-- An empty part anywhere in the split refutes both regex tests. -/
theorem tests_false_of_empty_part {s : String} (h : [] ∈ splitSlash s.data) :
    subjectRegexTest s = false ∧ legacySubjectRegexTest s = false := by
  constructor
  · cases hb : subjectRegexTest s with
    | false => rfl
    | true => exact absurd rfl (((subjectRegexTest_iff s).mp hb).2 [] h).1
  · cases hb : legacySubjectRegexTest s with
    | false => rfl
    | true => exact absurd rfl (((legacySubjectRegexTest_iff s).mp hb).2 [] h).1

/-- An empty part anywhere in the split makes both `createSubject`
variants throw. -/
theorem createSubject_error_of_empty_part {s : String} (h : [] ∈ splitSlash s.data) :
    createSubject s = .error (.invalidSubjectFormat s)
      ∧ legacyCreateSubject s = .error (.invalidSubjectFormat s) :=
  ⟨createSubject_error_of_test_false (tests_false_of_empty_part h).1,
   legacyCreateSubject_error_of_test_false (tests_false_of_empty_part h).2⟩

/-! ## Claims about the subject grammar -/

/-- Claim C6.  For every string that is empty, contains a disallowed character
(anything outside `[A-Za-z0-9-]`, other than the separator itself),
contains consecutive slashes, or has a leading or trailing slash,
`createSubject` throws `InvalidSubjectFormatError` (in both the strict and
the legacy variant); strings of case-insensitive alphanumeric-and-hyphen
segments separated by single slashes are accepted. -/
theorem C6_createSubject_validation :
    (createSubject "" = .error (.invalidSubjectFormat "")
      ∧ legacyCreateSubject "" = .error (.invalidSubjectFormat ""))
    ∧ (∀ (s : String) (c : Char), c ∈ s.data → isSubjectChar c = false → c ≠ '/' →
        createSubject s = .error (.invalidSubjectFormat s)
          ∧ legacyCreateSubject s = .error (.invalidSubjectFormat s))
    ∧ (∀ (s : String) (a b : List Char), s.data = a ++ '/' :: '/' :: b →
        createSubject s = .error (.invalidSubjectFormat s)
          ∧ legacyCreateSubject s = .error (.invalidSubjectFormat s))
    ∧ (∀ (s : String) (rest : List Char), s.data = '/' :: rest →
        createSubject s = .error (.invalidSubjectFormat s)
          ∧ legacyCreateSubject s = .error (.invalidSubjectFormat s))
    ∧ (∀ (s : String) (a : List Char), s.data = a ++ ['/'] →
        createSubject s = .error (.invalidSubjectFormat s)
          ∧ legacyCreateSubject s = .error (.invalidSubjectFormat s))
    ∧ (∀ segs : List String, 2 ≤ segs.length →
        (∀ p ∈ segs, p.data ≠ [] ∧ ∀ c ∈ p.data, isSubjectChar c = true) →
        createSubject (String.mk (joinSlash (segs.map String.data)))
          = .ok (String.mk (joinSlash (segs.map String.data)))) := by
  refine ⟨⟨rfl, rfl⟩, ?_, ?_, ?_, ?_, ?_⟩
  · -- disallowed character
    intro s c hmem hbad hslash
    rcases exists_part_of_mem s.data c hmem hslash with ⟨p, hp, hcp⟩
    have htest : subjectRegexTest s = false := by
      cases hb : subjectRegexTest s with
      | false => rfl
      | true =>
        have := (((subjectRegexTest_iff s).mp hb).2 p hp).2 c hcp
        rw [this] at hbad; cases hbad
    have htest2 : legacySubjectRegexTest s = false := by
      cases hb : legacySubjectRegexTest s with
      | false => rfl
      | true =>
        have := (((legacySubjectRegexTest_iff s).mp hb).2 p hp).2 c hcp
        rw [this] at hbad; cases hbad
    exact ⟨createSubject_error_of_test_false htest,
      legacyCreateSubject_error_of_test_false htest2⟩
  · -- consecutive slashes
    intro s a b hdata
    apply createSubject_error_of_empty_part
    rw [hdata]
    exact empty_mem_splitSlash_append a.length a ('/' :: b) le_rfl
      (by rw [splitSlash_cons_slash]; exact List.mem_cons_self _ _)
  · -- leading slash
    intro s rest hdata
    apply createSubject_error_of_empty_part
    rw [hdata, splitSlash_cons_slash]
    exact List.mem_cons_self _ _
  · -- trailing slash
    intro s a hdata
    apply createSubject_error_of_empty_part
    rw [hdata]
    exact empty_mem_splitSlash_append a.length a [] le_rfl
      (by rw [splitSlash_nil]; exact List.mem_singleton.mpr rfl)
  · -- acceptance of well-formed multi-segment subjects
    intro segs hlen hsegs
    set cs := joinSlash (segs.map String.data) with hcs
    have hmapne : segs.map String.data ≠ [] := by
      intro h
      rw [← List.length_eq_zero, List.length_map] at h
      omega
    have hnoslash : ∀ p ∈ segs.map String.data, '/' ∉ p := by
      intro p hp hmem
      rcases List.mem_map.mp hp with ⟨seg, hseg, rfl⟩
      have := (hsegs seg hseg).2 '/' hmem
      cases this
    have hsplit : splitSlash cs = segs.map String.data :=
      splitSlash_joinSlash _ hmapne hnoslash
    have hdata : (String.mk cs).data = cs := rfl
    have htest : subjectRegexTest (String.mk cs) = true := by
      rw [subjectRegexTest_iff, hdata, hsplit]
      refine ⟨by rw [List.length_map]; exact hlen, ?_⟩
      intro p hp
      rcases List.mem_map.mp hp with ⟨seg, hseg, rfl⟩
      exact ⟨(hsegs seg hseg).1, (hsegs seg hseg).2⟩
    have hne : ¬ String.mk cs = "" := by
      intro h
      have : cs = [] := congrArg String.data h
      rw [this] at hsplit
      rw [splitSlash_nil] at hsplit
      have : segs.length = 1 := by
        have := congrArg List.length hsplit
        rw [List.length_map] at this
        simpa using this.symm
      omega
    simp [createSubject, htest, hne]

/-- Witness for C6: `user_test` contains an underscore and is rejected by
both variants. -/
theorem C6_createSubject_validation_witness :
    createSubject "user_test" = .error (.invalidSubjectFormat "user_test")
      ∧ legacyCreateSubject "user_test" = .error (.invalidSubjectFormat "user_test") :=
  C6_createSubject_validation.2.1 "user_test" '_' (by decide) (by decide) (by decide)

/-- Claim C7.  For every valid subject (accepted by `createSubject`),
`getStreamSubjectFromSubject` returns the first two segments joined by
`'/'` — a string with exactly two segments that is a prefix of the
subject; for any string with fewer than two segments it fails with
`InvalidSubjectFormat`. -/
theorem C7_streamSubject_of_subject :
    (∀ s : String, createSubject s = .ok s →
      ∃ r : String, getStreamSubjectFromSubject s = .ok r
        ∧ (splitSlash r.data).length = 2
        ∧ ∃ rest : List Char, s.data = r.data ++ rest)
    ∧ (∀ s : String, (splitSlash s.data).length < 2 →
        getStreamSubjectFromSubject s = .error (.invalidSubjectFormat s)) := by
  constructor
  · intro s hok
    have htest := createSubject_ok_test hok
    rw [subjectRegexTest_iff] at htest
    obtain ⟨hlen, hparts⟩ := htest
    cases hq : splitSlash s.data with
    | nil => exact absurd hq (splitSlash_ne_nil _)
    | cons p1 ps =>
      cases ps with
      | nil => rw [hq] at hlen; simp at hlen
      | cons p2 rest' =>
        have hp1 : '/' ∉ p1 :=
          slash_not_mem_of_mem_splitSlash s.data p1 (by rw [hq]; simp)
        have hp2 : '/' ∉ p2 :=
          slash_not_mem_of_mem_splitSlash s.data p2 (by rw [hq]; simp)
        refine ⟨String.mk (p1 ++ '/' :: p2), ?_, ?_, ?_⟩
        · simp only [getStreamSubjectFromSubject, hq]
          rw [if_neg (by simp)]
          have : (p1 :: p2 :: rest').take 2 = [p1, p2] := rfl
          rw [this, joinSlash_cons _ _ (by simp)]
          rfl
        · have : (String.mk (p1 ++ '/' :: p2)).data = p1 ++ '/' :: p2 := rfl
          rw [this, splitSlash_append_slash _ _ hp1, splitSlash_of_no_slash p2 hp2]
          rfl
        · have hjoin := joinSlash_splitSlash s.data
          rw [hq] at hjoin
          cases rest' with
          | nil =>
            refine ⟨[], ?_⟩
            rw [List.append_nil]
            rw [joinSlash_cons _ _ (by simp)] at hjoin
            simp only [joinSlash] at hjoin
            exact hjoin.symm
          | cons r1 rs =>
            refine ⟨'/' :: joinSlash (r1 :: rs), ?_⟩
            rw [joinSlash_cons _ _ (by simp)] at hjoin
            rw [joinSlash_cons _ _ (by simp)] at hjoin
            rw [← hjoin]
            simp
  · intro s hlt
    simp [getStreamSubjectFromSubject, hlt]

/-- Witness for C7: applied to the valid subject `user/123/created`. -/
theorem C7_streamSubject_of_subject_witness :
    ∃ r : String, getStreamSubjectFromSubject "user/123/created" = .ok r
      ∧ (splitSlash r.data).length = 2
      ∧ ∃ rest : List Char, "user/123/created".data = r.data ++ rest :=
  C7_streamSubject_of_subject.1 "user/123/created" rfl

/-- Claim C10.  For every subject accepted by `createSubject`,
`getCollectionNameFromSubject` never throws: it returns the first
segment, which is non-empty. -/
theorem C10_collectionName_total_on_valid :
    ∀ s : String, createSubject s = .ok s →
      getCollectionNameFromSubject s = .ok (String.mk ((splitSlash s.data).headD []))
        ∧ (splitSlash s.data).headD [] ≠ [] := by
  intro s hok
  have htest := createSubject_ok_test hok
  rw [subjectRegexTest_iff] at htest
  obtain ⟨hlen, hparts⟩ := htest
  cases hq : splitSlash s.data with
  | nil => exact absurd hq (splitSlash_ne_nil _)
  | cons p1 ps =>
    have hp1ne : p1 ≠ [] := (hparts p1 (by rw [hq]; simp)).1
    constructor
    · simp only [getCollectionNameFromSubject, hq, List.headD_cons]
      rw [if_neg (by simpa using hp1ne)]
    · simpa using hp1ne

/-- Witness for C10: applied to the valid subject `user/123`. -/
theorem C10_collectionName_total_on_valid_witness :
    getCollectionNameFromSubject "user/123"
        = .ok (String.mk ((splitSlash "user/123".data).headD []))
      ∧ (splitSlash "user/123".data).headD [] ≠ [] :=
  C10_collectionName_total_on_valid "user/123" rfl

/-! ## Lemmas about the filter rewriter -/

theorem string_data_append (a b : String) : (a ++ b).data = a.data ++ b.data := by
  cases a
  cases b
  rfl

/-- Every key of the form `N ++ "." ++ k` contains a dot. -/
theorem dot_mem_appended_key (N k : String) : '.' ∈ (N ++ "." ++ k).data := by
  rw [string_data_append, string_data_append]
  exact List.mem_append.mpr (Or.inl (List.mem_append.mpr (Or.inr (by decide))))

/-- A key containing a dot is neither a logical nor a field operator, so
it is treated as a bare field key by the rewriter. -/
theorem not_op_of_contains_dot {k : String} (h : '.' ∈ k.data) :
    isLogicalOperator k = false ∧ isFieldOperator k = false := by
  constructor
  · unfold isLogicalOperator
    by_cases h1 : k = "$and"
    · subst h1; exact absurd h (by decide)
    · by_cases h2 : k = "$or"
      · subst h2; exact absurd h (by decide)
      · by_cases h3 : k = "$nor"
        · subst h3; exact absurd h (by decide)
        · simp [h1, h2, h3]
  · unfold isFieldOperator
    by_cases h1 : k = "$not"
    · subst h1; exact absurd h (by decide)
    · by_cases h2 : k = "$expr"
      · subst h2; exact absurd h (by decide)
      · by_cases h3 : k = "$jsonSchema"
        · subst h3; exact absurd h (by decide)
        · by_cases h4 : k = "$where"
          · subst h4; exact absurd h (by decide)
          · simp [h1, h2, h3, h4]

/-- One-step unfolding of `transformEntries` on a non-empty object. -/
theorem transformEntries_cons (key : String) (value : JSVal) (tl : JSObj)
    (nestedPath : String) :
    transformEntries (.cons key value tl) nestedPath
      = if isLogicalOperator key then
          .cons key (transformLogicalValue value nestedPath) (transformEntries tl nestedPath)
        else if isFieldOperator key then
          .cons key (transformFilterForNestedPath value nestedPath)
            (transformEntries tl nestedPath)
        else if isPlainObject value then
          .cons (nestedPath ++ "." ++ key) (transformOperatorValue value nestedPath key)
            (transformEntries tl nestedPath)
        else
          .cons (nestedPath ++ "." ++ key) value (transformEntries tl nestedPath) := by
  conv_lhs => rw [transformEntries]

theorem transformEntries_nil (nestedPath : String) :
    transformEntries .nil nestedPath = .nil := by
  rw [transformEntries]

theorem transformFilter_obj (fields : JSObj) (nestedPath : String) :
    transformFilterForNestedPath (.obj fields) nestedPath
      = .obj (transformEntries fields nestedPath) := by
  rw [transformFilterForNestedPath]

theorem transformLogicalValue_arr (conds : JSArr) (nestedPath : String) :
    transformLogicalValue (.arr conds) nestedPath
      = .arr (transformCondArr conds nestedPath) := by
  rw [transformLogicalValue]

theorem transformOperatorValue_obj (fields : JSObj) (nestedPath originalKey : String) :
    transformOperatorValue (.obj fields) nestedPath originalKey
      = .obj (transformOpEntries fields nestedPath originalKey) := by
  rw [transformOperatorValue]

theorem transformOpEntries_nil (nestedPath originalKey : String) :
    transformOpEntries .nil nestedPath originalKey = .nil := by
  rw [transformOpEntries]

theorem transformOpEntries_cons (opKey : String) (opValue : JSVal) (tl : JSObj)
    (nestedPath originalKey : String) :
    transformOpEntries (.cons opKey opValue tl) nestedPath originalKey
      = .cons opKey
          (if opKey = "$regex" || opKey = "$options" || opKey = "$elemMatch"
              || !requiresTransformation opKey then
            opValue
          else
            transformOpOperand opValue nestedPath originalKey)
          (transformOpEntries tl nestedPath originalKey) := by
  conv_lhs => rw [transformOpEntries]

/-- The keys of a rewritten object: operator keys are kept, bare keys are
prefixed with the nested path. -/
theorem transformEntries_keys (fields : JSObj) (nestedPath : String) :
    (transformEntries fields nestedPath).keys
      = fields.keys.map (fun k =>
          if isLogicalOperator k || isFieldOperator k then k else nestedPath ++ "." ++ k) := by
  induction fields using JSObj.recList with
  | hnil => rw [transformEntries]; rfl
  | hcons key value tl ih =>
    rw [transformEntries_cons]
    cases h1 : isLogicalOperator key with
    | true => simp [JSObj.keys, ih, h1]
    | false =>
      cases h2 : isFieldOperator key with
      | true => simp [JSObj.keys, ih, h1, h2]
      | false =>
        cases h3 : isPlainObject value with
        | true => simp [JSObj.keys, ih, h1, h2, h3]
        | false => simp [JSObj.keys, ih, h1, h2, h3]

/-- A bare key `k` of the input reappears as `nestedPath ++ "." ++ k` in
the rewritten object. -/
theorem mem_keys_transformEntries {fields : JSObj} {k : String} (nestedPath : String)
    (hk : k ∈ fields.keys) (h1 : isLogicalOperator k = false)
    (h2 : isFieldOperator k = false) :
    (nestedPath ++ "." ++ k) ∈ (transformEntries fields nestedPath).keys := by
  rw [transformEntries_keys]
  have : (fun k' =>
      if isLogicalOperator k' || isFieldOperator k' then k' else nestedPath ++ "." ++ k') k
      = nestedPath ++ "." ++ k := by
    simp [h1, h2]
  exact this ▸ List.mem_map_of_mem _ hk

/-! ## Claims about the filter rewriter -/

/-- Claim C5.  For every filter with a bare top-level field key `k` and every
nested path `N`, applying `transformFilterForNestedPath` twice with the
same `N` yields a filter containing the doubly nested path `N.N.k`; double
application with the same path is not idempotent (shown on a filter from
the repository tests with key `status` under `projections.test`). -/
theorem C5_double_application_doubly_nested :
    (∀ (F : JSObj) (N k : String), k ∈ F.keys →
        isLogicalOperator k = false → isFieldOperator k = false →
        (N ++ "." ++ (N ++ "." ++ k)) ∈ topKeys
          (transformFilterForNestedPath (transformFilterForNestedPath (.obj F) N) N))
    ∧ transformFilterForNestedPath
          (transformFilterForNestedPath
            (.obj (.cons "status" (.str "active") .nil)) "projections.test")
          "projections.test"
        ≠ transformFilterForNestedPath
            (.obj (.cons "status" (.str "active") .nil)) "projections.test" := by
  constructor
  · intro F N k hk h1 h2
    rw [transformFilter_obj, transformFilter_obj]
    show (N ++ "." ++ (N ++ "." ++ k))
      ∈ (transformEntries (transformEntries F N) N).keys
    have hmid : (N ++ "." ++ k) ∈ (transformEntries F N).keys :=
      mem_keys_transformEntries N hk h1 h2
    have hbare := not_op_of_contains_dot (dot_mem_appended_key N k)
    exact mem_keys_transformEntries N hmid hbare.1 hbare.2
  · decide

/-- Witness for C5: the double-nesting clause at the repository-test
filter with key `status` under `projections.test`. -/
theorem C5_double_application_doubly_nested_witness :
    ("projections.test" ++ "." ++ ("projections.test" ++ "." ++ "status")) ∈ topKeys
      (transformFilterForNestedPath
        (transformFilterForNestedPath
          (.obj (.cons "status" (.str "active") .nil)) "projections.test")
        "projections.test") :=
  C5_double_application_doubly_nested.1
    (.cons "status" (.str "active") .nil) "projections.test" "status"
    (by decide) (by decide) (by decide)

/-- Claim C4, amended.  The rewriter: (i) rewrites each element of a
`$and`/`$or`/`$nor` array recursively; (ii) replaces a bare field key `k`
by `N.k`; (iii) leaves the operand of a whitelisted value operator
(`$eq`, `$ne`, `$gt`, `$gte`, `$lt`, `$lte`, `$in`, `$nin`, `$exists`,
`$type`, `$size`, `$regex`, `$options`, …) and of `$elemMatch` untouched
under a bare field key. -/
theorem C4_rewrite_rules :
    (∀ (lop N : String) (conds : JSArr), isLogicalOperator lop = true →
        transformFilterForNestedPath (.obj (.cons lop (.arr conds) .nil)) N
          = .obj (.cons lop (.arr (transformCondArr conds N)) .nil))
    ∧ (∀ (k N : String) (v : JSVal), isLogicalOperator k = false →
        isFieldOperator k = false → isPlainObject v = false →
        transformFilterForNestedPath (.obj (.cons k v .nil)) N
          = .obj (.cons (N ++ "." ++ k) v .nil))
    ∧ (∀ (k N op : String) (w : JSVal), isLogicalOperator k = false →
        isFieldOperator k = false →
        (op = "$regex" || op = "$options" || op = "$elemMatch"
          || !requiresTransformation op) = true →
        transformFilterForNestedPath (.obj (.cons k (.obj (.cons op w .nil)) .nil)) N
          = .obj (.cons (N ++ "." ++ k) (.obj (.cons op w .nil)) .nil)) := by
  refine ⟨?_, ?_, ?_⟩
  · intro lop N conds hlop
    rw [transformFilter_obj, transformEntries_cons, if_pos hlop,
      transformLogicalValue_arr, transformEntries_nil]
  · intro k N v h1 h2 h3
    rw [transformFilter_obj, transformEntries_cons, if_neg (by simp [h1]),
      if_neg (by simp [h2]), if_neg (by simp [h3]), transformEntries_nil]
  · intro k N op w h1 h2 hop
    rw [transformFilter_obj, transformEntries_cons, if_neg (by simp [h1]),
      if_neg (by simp [h2]), if_pos (by rfl), transformOperatorValue_obj,
      transformOpEntries_cons, if_pos hop, transformOpEntries_nil,
      transformEntries_nil]

/-- Witness for C4: the `$elemMatch` clause of a repository test filter
(items with an `$elemMatch` on type product) under path `p`. -/
theorem C4_rewrite_rules_witness :
    transformFilterForNestedPath
        (.obj (.cons "items"
          (.obj (.cons "$elemMatch" (.obj (.cons "type" (.str "product") .nil)) .nil)) .nil)) "p"
      = .obj (.cons ("p" ++ "." ++ "items")
          (.obj (.cons "$elemMatch" (.obj (.cons "type" (.str "product") .nil)) .nil)) .nil) :=
  C4_rewrite_rules.2.2 "items" "p" "$elemMatch"
    (.obj (.cons "type" (.str "product") .nil)) (by decide) (by decide) (by decide)

/-- Counterexample to C4 as stated: a `$geometry` operand containing a
plain object inside an array is *not* passed through unchanged — the
keys of the object are rewritten as a sub-filter. -/
theorem C4_counterexample :
    transformFilterForNestedPath
        (.obj (.cons "loc"
          (.obj (.cons "$geoWithin"
            (.obj (.cons "$geometry"
              (.obj (.cons "coordinates"
                (.arr (.cons (.obj (.cons "x" (.num 1) .nil)) .nil)) .nil)) .nil)) .nil)) .nil))
        "p"
      = .obj (.cons "p.loc"
          (.obj (.cons "$geoWithin"
            (.obj (.cons "$geometry"
              (.obj (.cons "coordinates"
                (.arr (.cons (.obj (.cons "p.x" (.num 1) .nil)) .nil)) .nil)) .nil)) .nil)) .nil)
    ∧ (JSVal.obj (.cons "p.loc"
          (.obj (.cons "$geoWithin"
            (.obj (.cons "$geometry"
              (.obj (.cons "coordinates"
                (.arr (.cons (.obj (.cons "p.x" (.num 1) .nil)) .nil)) .nil)) .nil)) .nil)) .nil))
      ≠ .obj (.cons "p.loc"
          (.obj (.cons "$geoWithin"
            (.obj (.cons "$geometry"
              (.obj (.cons "coordinates"
                (.arr (.cons (.obj (.cons "x" (.num 1) .nil)) .nil)) .nil)) .nil)) .nil)) .nil) := by
  exact ⟨by decide, by decide⟩

/-! ## Claims about empty batches, the command orchestrator and
projection queries -/

/-- Claim C9.  Calling `appendOrCreateStream` with an empty event array fails
with the empty-batch error before the transaction starts and before any
database work (no operation is issued and the state is untouched);
likewise `eventsHaveSameStreamSubject` on an empty list fails. -/
theorem C9_emptyBatch_fails_early :
    (∀ (projections : List ProjectionDefinition) (now uuidSeed : Nat) (st : EventStoreState),
      appendOrCreateStream projections now uuidSeed [] st
        = (.error (.emptyBatch "Cannot process an empty array of events"), st, []))
    ∧ eventsHaveSameStreamSubject []
        = .error (.emptyBatch "Cannot check stream subject for an empty array of events") :=
  ⟨fun _ _ _ _ => rfl, rfl⟩

/-- Claim C3, amended.  In `handleCommand` the return value of the handler is normalized with
an `Array.isArray` check — an array passes through unchanged, and *any*
other value (event or not) becomes a one-element sequence; no shape
validation is performed — and passes the normalized sequence to
`appendOrCreateStream`, whose result is returned. -/
theorem C3_handleCommand_normalization :
    (∀ (aggregateStream : String → (JSVal → JSVal → JSVal) → JSVal → JSVal)
        (appendFn : List JSVal → Except StoreError AppendResult)
        (streams : List CommandStreamConfig)
        (handler : JSVal → List (String × JSVal) → JSVal) (command : JSVal),
      handleCommand aggregateStream appendFn streams handler command
        = appendFn (normalizeHandlerResult (handler command
            (streams.foldl (fun states stream =>
              setState states stream.streamSubject
                (aggregateStream stream.streamSubject stream.evolve stream.initialState))
              []))))
    ∧ (∀ xs : JSArr, normalizeHandlerResult (.arr xs) = xs.toList)
    ∧ (∀ v : JSVal, (∀ xs : JSArr, v ≠ .arr xs) → normalizeHandlerResult v = [v]) := by
  refine ⟨fun _ _ _ _ _ => rfl, fun _ => rfl, ?_⟩
  intro v hv
  cases v with
  | arr xs => exact absurd rfl (hv xs)
  | null => rfl
  | undef => rfl
  | boolean b => rfl
  | num n => rfl
  | str s => rfl
  | dateVal t => rfl
  | regexVal r => rfl
  | obj fields => rfl

/-- Witness for C3 (amended): a `null` handler result is wrapped, not
rejected. -/
theorem C3_handleCommand_normalization_witness :
    normalizeHandlerResult .null = [.null] :=
  C3_handleCommand_normalization.2.2 .null (fun _ h => JSVal.noConfusion h)

/-- Counterexample to C3 as stated: a handler returning `null` — neither
an event nor a sequence of events — does not fail; the orchestrator wraps
it as `[null]`, hands it to `appendOrCreateStream`, and returns that
result of that call (successful, for this recording store) instead of an
`InvalidHandlerResult` error. -/
theorem C3_counterexample :
    handleCommand (fun _ _ _ => .null)
        (fun evs => .ok { streams := [], totalEventsAppended := evs.length, streamSubjects := [] })
        [] (fun _ _ => .null) .null
      = .ok { streams := [], totalEventsAppended := 1, streamSubjects := [] } := rfl

/-- Claim C8, amended.  Here `findOneProjection` passes `findOne` a filter that
is the `$and` of: (i) the stream-subject equality clause — dropped exactly
when `matchAll` is true *and* a user query is supplied; (ii) existence of
`projections.<name>`; (iii) when supplied, the user query rewritten under
`projections.<name>`; and it returns what `findOne` yields (the matching
stream document or null). -/
theorem C8_findOneProjection_filter :
    (∀ (findOne : JSVal → Option StreamDoc) (streamSubject : String)
        (q : ProjectionQueryArg),
      findOneProjection findOne streamSubject q
        = findOne (buildFindOneProjectionFilter streamSubject q))
    ∧ (∀ (streamSubject : String) (q : ProjectionQueryArg),
        buildFindOneProjectionFilter streamSubject q = specFindOneFilter streamSubject q) := by
  refine ⟨fun _ _ _ => rfl, ?_⟩
  intro streamSubject q
  obtain ⟨name, pq, matchAll⟩ := q
  cases pq with
  | none => rfl
  | some pq => cases matchAll <;> rfl

/-- Counterexample to C8 as stated: with `matchAll := true` but no user
query, the built filter still contains the stream-subject clause — the
claimed unconditional drop on `matchAll` does not happen. -/
theorem C8_counterexample :
    buildFindOneProjectionFilter "user/1"
        { projectionName := "P", projectionQuery := none, matchAll := true }
      = .obj (.cons "$and" (.arr (JSArr.ofList
          [.obj (.cons "streamSubject" (.obj (.cons "$eq" (.str "user/1") .nil)) .nil),
           .obj (.cons "projections.P" (.obj (.cons "$exists" (.boolean true) .nil)) .nil)]))
          .nil)
    ∧ (JSVal.obj (.cons "$and" (.arr (JSArr.ofList
          [.obj (.cons "streamSubject" (.obj (.cons "$eq" (.str "user/1") .nil)) .nil),
           .obj (.cons "projections.P" (.obj (.cons "$exists" (.boolean true) .nil)) .nil)]))
          .nil))
      ≠ .obj (.cons "$and" (.arr (JSArr.ofList
          [.obj (.cons "projections.P" (.obj (.cons "$exists" (.boolean true) .nil)) .nil)]))
          .nil) :=
  ⟨rfl, by decide⟩


/-! ## Lemmas about projection slot maps -/

theorem lookupSlot_eq_none_of_not_any {slots : List (String × JSVal)} {name : String}
    (h : slots.any (fun s => s.1 = name) = false) : lookupSlot slots name = none := by
  induction slots with
  | nil => rfl
  | cons s rest ih =>
    simp only [List.any_cons, Bool.or_eq_false_iff] at h
    simp only [lookupSlot, if_neg (by simpa using h.1)]
    exact ih h.2

theorem lookupSlot_replace_self {name : String} {v : JSVal} :
    ∀ slots : List (String × JSVal), slots.any (fun s => s.1 = name) = true →
    lookupSlot (slots.map (fun s => if s.1 = name then (s.1, v) else s)) name = some v := by
  intro slots hany
  induction slots with
  | nil => simp at hany
  | cons s rest ih =>
    obtain ⟨s1, s2⟩ := s
    by_cases hs : s1 = name
    · subst hs
      simp [lookupSlot]
    · simp only [List.any_cons, Bool.or_eq_true] at hany
      rcases hany with h | h
      · exact absurd (by simpa using h) hs
      · simp only [List.map_cons, if_neg hs, lookupSlot, if_neg hs]
        exact ih h

theorem lookupSlot_replace_other {name name' : String} {v : JSVal} (hne : name' ≠ name) :
    ∀ slots : List (String × JSVal),
    lookupSlot (slots.map (fun s => if s.1 = name then (s.1, v) else s)) name'
      = lookupSlot slots name' := by
  intro slots
  induction slots with
  | nil => rfl
  | cons s rest ih =>
    obtain ⟨s1, s2⟩ := s
    by_cases hs : s1 = name
    · subst hs
      have hcond : ¬ s1 = name' := fun hh => hne hh.symm
      simpa [lookupSlot, hcond] using ih
    · simp only [List.map_cons, if_neg hs, lookupSlot]
      by_cases hs' : s1 = name'
      · rw [if_pos hs', if_pos hs']
      · rw [if_neg hs', if_neg hs']
        exact ih

theorem lookupSlot_append_single_self {name : String} {v : JSVal}
    {slots : List (String × JSVal)} (h : lookupSlot slots name = none) :
    lookupSlot (slots ++ [(name, v)]) name = some v := by
  induction slots with
  | nil => simp [lookupSlot]
  | cons s rest ih =>
    simp only [lookupSlot, List.cons_append] at h ⊢
    by_cases hs : s.1 = name
    · rw [if_pos hs] at h; cases h
    · rw [if_neg hs] at h ⊢
      exact ih h

theorem lookupSlot_append_single_other {name name' : String} {v : JSVal}
    (hne : name' ≠ name) (slots : List (String × JSVal)) :
    lookupSlot (slots ++ [(name, v)]) name' = lookupSlot slots name' := by
  induction slots with
  | nil =>
    simp only [List.nil_append, lookupSlot]
    rw [if_neg (fun hh : name = name' => hne hh.symm)]
  | cons s rest ih =>
    simp only [List.cons_append, lookupSlot]
    by_cases hs : s.1 = name'
    · rw [if_pos hs, if_pos hs]
    · rw [if_neg hs, if_neg hs]
      exact ih

theorem lookupSlot_setSlot_self (slots : List (String × JSVal)) (name : String) (v : JSVal) :
    lookupSlot (setSlot slots name v) name = some v := by
  unfold setSlot
  cases hany : slots.any (fun s => s.1 = name) with
  | true =>
    rw [if_pos rfl]
    exact lookupSlot_replace_self slots hany
  | false =>
    rw [if_neg (by simp)]
    exact lookupSlot_append_single_self (lookupSlot_eq_none_of_not_any hany)

theorem lookupSlot_setSlot_other (slots : List (String × JSVal)) {name name' : String}
    (v : JSVal) (hne : name' ≠ name) :
    lookupSlot (setSlot slots name v) name' = lookupSlot slots name' := by
  unfold setSlot
  cases hany : slots.any (fun s => s.1 = name) with
  | true =>
    rw [if_pos rfl]
    exact lookupSlot_replace_other hne slots
  | false =>
    rw [if_neg (by simp)]
    exact lookupSlot_append_single_other hne slots

theorem lookupSlot_applySetUpdates_not_mem {name : String} :
    ∀ (updates : List (String × JSVal)) (slots : List (String × JSVal)),
    name ∉ updates.map Prod.fst →
    lookupSlot (applySetUpdates slots updates) name = lookupSlot slots name := by
  intro updates
  induction updates with
  | nil => intro slots _; rfl
  | cons u rest ih =>
    intro slots hmem
    obtain ⟨u1, u2⟩ := u
    simp only [List.map_cons, List.mem_cons] at hmem
    push_neg at hmem
    simp only [applySetUpdates]
    rw [ih _ hmem.2]
    exact lookupSlot_setSlot_other slots u2 hmem.1

theorem lookupSlot_applySetUpdates_mem {name : String} {v : JSVal} :
    ∀ (updates : List (String × JSVal)) (slots : List (String × JSVal)),
    (updates.map Prod.fst).Nodup → (name, v) ∈ updates →
    lookupSlot (applySetUpdates slots updates) name = some v := by
  intro updates
  induction updates with
  | nil => intro slots _ hmem; simp at hmem
  | cons u rest ih =>
    intro slots hnodup hmem
    obtain ⟨u1, u2⟩ := u
    simp only [List.map_cons, List.nodup_cons] at hnodup
    rcases List.mem_cons.mp hmem with h | h
    · cases h
      simp only [applySetUpdates]
      rw [lookupSlot_applySetUpdates_not_mem rest _ hnodup.1]
      exact lookupSlot_setSlot_self slots name v
    · simp only [applySetUpdates]
      exact ih _ hnodup.2 h

/-! ## Claim C1: the projection slot written by an append -/

/-- Claim C1, amended.  For every batch written to a stream and every
selected projection `P` (one whose `canHandle` contains the type of some
event of the batch of the stream), the slot written for `P` equals the fold of
`P.evolve` over **all** events of that batch — not only the
applicable ones — starting from the previously stored slot value when it
is present and truthy (JS `||`), else from `P.initialState`.  Distinct
projection names are assumed, as registries have unique names. -/
theorem C1_projection_slot_fold_all_events
    (now freshId : Nat) (streamSubject : String) (events : List DomainEvent)
    (doc? : Option StreamDoc) (projections : List ProjectionDefinition)
    (P : ProjectionDefinition)
    (hP : P ∈ projections)
    (hnodup : (projections.map fun p => p.name).Nodup)
    (hsel : P.canHandle.any (fun t => (events.map fun e => e.type).contains t) = true) :
    lookupSlot
        (processStreamInTransaction now freshId streamSubject events doc? projections).projections
        P.name
      = some (events.foldl P.evolve
          (jsOrElse (lookupSlot (storedProjections doc?) P.name) P.initialState)) := by
  have hne : projections ≠ [] := List.ne_nil_of_mem hP
  have hieF : projections.isEmpty = false := List.isEmpty_eq_false.mpr hne
  have happ : P ∈ projections.filter
      (fun p => p.canHandle.any fun t => (events.map fun e => e.type).contains t) :=
    List.mem_filter.mpr ⟨hP, hsel⟩
  have hsub : ((projections.filter
        (fun p => p.canHandle.any fun t => (events.map fun e => e.type).contains t)).map
          fun p => p.name).Sublist
      (projections.map fun p => p.name) :=
    (List.filter_sublist projections).map _
  have hnodup' := hnodup.sublist hsub
  cases doc? with
  | none =>
    simp only [processStreamInTransaction, hieF, Bool.false_eq_true, if_false,
      storedProjections]
    apply lookupSlot_applySetUpdates_mem
    · simpa [List.map_map, Function.comp] using hnodup'
    · exact List.mem_map_of_mem _ happ
  | some d =>
    simp only [processStreamInTransaction, hieF, Bool.false_eq_true, if_false,
      storedProjections]
    apply lookupSlot_applySetUpdates_mem
    · simpa [List.map_map, Function.comp] using hnodup'
    · exact List.mem_map_of_mem _ happ

/-- Witness for C1 (amended): the sample projection over a mixed-type
batch on a fresh stream. -/
theorem C1_projection_slot_fold_all_events_witness :
    lookupSlot
        (processStreamInTransaction 0 0 "user/1" [sampleEventA, sampleEventB] none
          [sampleProjection]).projections
        sampleProjection.name
      = some ([sampleEventA, sampleEventB].foldl sampleProjection.evolve
          (jsOrElse (lookupSlot (storedProjections none) sampleProjection.name)
            sampleProjection.initialState)) :=
  C1_projection_slot_fold_all_events 0 0 "user/1" [sampleEventA, sampleEventB] none
    [sampleProjection] sampleProjection (List.mem_cons_self _ _) (by simp) (by decide)

/-- Counterexample to C1 as stated: with prior slot absent, a projection
handling only type `a`, initial state `5` and a counting `evolve`, the
code stores the fold over *both* events (`7`), while the claimed fold
over the applicable events alone yields `6`. -/
theorem C1_counterexample :
    lookupSlot
        (processStreamInTransaction 0 0 "user/1" [sampleEventA, sampleEventB] none
          [sampleProjection]).projections "P"
      = some (.num 7)
    ∧ claimedProjectionSlot sampleProjection [sampleEventA, sampleEventB] none = .num 6
    ∧ (JSVal.num 7) ≠ .num 6 :=
  ⟨rfl, rfl, by decide⟩

/-! ## Lemmas about grouping and the append result -/

theorem getStreamSubject_ok_of_two_parts {s : String}
    (h : 2 ≤ (splitSlash s.data).length) :
    getStreamSubjectFromSubject s = .ok (streamSubjectOfSubject s) := by
  simp only [getStreamSubjectFromSubject, streamSubjectOfSubject]
  rw [if_neg (Nat.not_lt.mpr h)]

theorem two_parts_of_valid {s : String} (h : createSubject s = .ok s) :
    2 ≤ (splitSlash s.data).length :=
  ((subjectRegexTest_iff s).mp (createSubject_ok_test h)).1

/-- The stream subject of a `createSubject`-valid subject has a valid,
non-empty collection name. -/
theorem collectionName_of_valid {s : String} (hok : createSubject s = .ok s) :
    ∃ n, getCollectionNameFromSubject (streamSubjectOfSubject s) = .ok n := by
  have htest := createSubject_ok_test hok
  rw [subjectRegexTest_iff] at htest
  obtain ⟨hlen, hparts⟩ := htest
  cases hq : splitSlash s.data with
  | nil => exact absurd hq (splitSlash_ne_nil _)
  | cons p1 ps =>
    cases ps with
    | nil => rw [hq] at hlen; simp at hlen
    | cons p2 rest =>
      have hp1 : '/' ∉ p1 := slash_not_mem_of_mem_splitSlash s.data p1 (by rw [hq]; simp)
      have hp2 : '/' ∉ p2 := slash_not_mem_of_mem_splitSlash s.data p2 (by rw [hq]; simp)
      have hp1ne : p1 ≠ [] := (hparts p1 (by rw [hq]; simp)).1
      refine ⟨String.mk p1, ?_⟩
      simp only [streamSubjectOfSubject, hq]
      have htake : (p1 :: p2 :: rest).take 2 = [p1, p2] := rfl
      rw [htake, joinSlash_cons _ _ (by simp)]
      simp only [getCollectionNameFromSubject]
      have hjoin : joinSlash [p2] = p2 := rfl
      rw [hjoin]
      rw [splitSlash_append_slash _ _ hp1]
      simp [List.isEmpty_eq_false.mpr hp1ne]

theorem list_contains_eq_any (l : List String) (a : String) :
    l.contains a = l.any (fun x => x = a) := by
  induction l with
  | nil => rfl
  | cons x rest ih =>
    by_cases h : x = a
    · subst h
      simp [List.contains_cons]
    · have h1 : (a == x) = false := beq_eq_false_iff_ne.mpr (fun hh => h hh.symm)
      have h2 : (decide (x = a)) = false := decide_eq_false h
      rw [List.contains_cons, List.any_cons, h1, h2, Bool.false_or, Bool.false_or, ih]

theorem contains_map_fst {α : Type} (acc : List (String × α)) (key : String) :
    (acc.map Prod.fst).contains key = acc.any (fun g => g.1 = key) := by
  rw [list_contains_eq_any]
  induction acc with
  | nil => rfl
  | cons g rest ih => simp only [List.map_cons, List.any_cons, ih]

theorem insertEvent_keys (acc : List (String × List DomainEvent)) (key : String)
    (e : DomainEvent) :
    (insertEventIntoGroups acc key e).map Prod.fst
      = if (acc.map Prod.fst).contains key then acc.map Prod.fst
        else acc.map Prod.fst ++ [key] := by
  unfold insertEventIntoGroups
  rw [contains_map_fst]
  cases hany : acc.any (fun g => g.1 = key) with
  | true =>
    rw [if_pos rfl, if_pos rfl, List.map_map]
    apply List.map_congr_left
    intro g _
    by_cases h : g.1 = key <;> simp [h]
  | false =>
    rw [if_neg (by simp), if_neg (by simp), List.map_append]
    rfl

theorem dedupFold_extends :
    ∀ (l : List String) (acc : List String),
    ∃ t, l.foldl (fun ks x => if ks.contains x then ks else ks ++ [x]) acc = acc ++ t := by
  intro l
  induction l with
  | nil => intro acc; exact ⟨[], by simp⟩
  | cons x rest ih =>
    intro acc
    simp only [List.foldl_cons]
    by_cases h : acc.contains x = true
    · rw [if_pos h]
      exact ih acc
    · rw [if_neg h]
      obtain ⟨t, ht⟩ := ih (acc ++ [x])
      exact ⟨[x] ++ t, by rw [ht, List.append_assoc]⟩

/-- The grouping loop succeeds on two-part subjects, its keys are the
first-appearance dedup of the stream subjects of the events (relative to the
accumulator), and every key comes from the accumulator or from an
event. -/
theorem groupEventsGo_spec :
    ∀ (events : List DomainEvent) (acc : List (String × List DomainEvent)),
    (∀ e ∈ events, 2 ≤ (splitSlash e.subject.data).length) →
    ∃ groups, groupEventsGo acc events = .ok groups
      ∧ groups.map Prod.fst
          = (events.map fun e => streamSubjectOfSubject e.subject).foldl
              (fun ks x => if ks.contains x then ks else ks ++ [x]) (acc.map Prod.fst)
      ∧ ∀ k ∈ groups.map Prod.fst,
          k ∈ acc.map Prod.fst ∨ ∃ e ∈ events, k = streamSubjectOfSubject e.subject := by
  intro events
  induction events with
  | nil =>
    intro acc _
    exact ⟨acc, rfl, rfl, fun k hk => Or.inl hk⟩
  | cons e rest ih =>
    intro acc hv
    have hsso : getStreamSubjectFromSubject e.subject
        = .ok (streamSubjectOfSubject e.subject) :=
      getStreamSubject_ok_of_two_parts (hv e (List.mem_cons_self _ _))
    obtain ⟨groups, hgo, hkeys, hprov⟩ :=
      ih (insertEventIntoGroups acc (streamSubjectOfSubject e.subject) e)
        (fun e' he' => hv e' (List.mem_cons.mpr (Or.inr he')))
    refine ⟨groups, ?_, ?_, ?_⟩
    · simp only [groupEventsGo, hsso]
      exact hgo
    · rw [hkeys, insertEvent_keys]
      simp only [List.map_cons, List.foldl_cons]
    · intro k hk
      rcases hprov k hk with h | ⟨e', he', hk'⟩
      · rw [insertEvent_keys] at h
        by_cases hc : (acc.map Prod.fst).contains (streamSubjectOfSubject e.subject) = true
        · rw [if_pos hc] at h
          exact Or.inl h
        · rw [if_neg hc] at h
          rcases List.mem_append.mp h with h | h
          · exact Or.inl h
          · exact Or.inr ⟨e, List.mem_cons_self _ _, List.mem_singleton.mp h⟩
      · exact Or.inr ⟨e', List.mem_cons.mpr (Or.inr he'), hk'⟩

/-- The transaction loop succeeds when the stream subject of every group has a
valid collection name. -/
theorem runGroups_ok (projections : List ProjectionDefinition) (now : Nat) :
    ∀ (groups : List (String × List DomainEvent)) (uuidSeed : Nat) (st : EventStoreState),
    (∀ g ∈ groups, ∃ n, getCollectionNameFromSubject g.1 = .ok n) →
    ∃ docs st' ops, runGroups projections now uuidSeed groups st = (.ok (docs, st'), ops) := by
  intro groups
  induction groups with
  | nil => intro uuidSeed st _; exact ⟨[], st, [], rfl⟩
  | cons g rest ih =>
    intro uuidSeed st hcoll
    obtain ⟨ss, es⟩ := g
    obtain ⟨n, hn⟩ := hcoll (ss, es) (List.mem_cons_self _ _)
    obtain ⟨docs, st', ops, hrun⟩ :=
      ih (uuidSeed + 1)
        (putColl st n (putDocIn (getColl st n)
          (processStreamInTransaction now uuidSeed ss es
            (findDocIn (getColl st n) ss) projections)))
        (fun g' hg' => hcoll g' (List.mem_cons.mpr (Or.inr hg')))
    exact ⟨processStreamInTransaction now uuidSeed ss es (findDocIn (getColl st n) ss)
        projections :: docs, st', processStreamOps projections n ss ++ ops,
      by simp only [runGroups, hn, hrun]⟩

/-- Claim C2.  For every non-empty batch of events with valid subjects,
`appendOrCreateStream` succeeds with `totalEventsAppended` equal to the
batch size and `streamSubjects` equal to the distinct stream subjects of
the events of the batch in first-appearance order. -/
theorem C2_append_result
    (projections : List ProjectionDefinition) (now uuidSeed : Nat)
    (events : List DomainEvent) (st : EventStoreState)
    (hne : events ≠ [])
    (hvalid : ∀ e ∈ events, createSubject e.subject = .ok e.subject) :
    ∃ r st' ops, appendOrCreateStream projections now uuidSeed events st = (.ok r, st', ops)
      ∧ r.totalEventsAppended = events.length
      ∧ r.streamSubjects = distinctStreamSubjectsIn events := by
  have hv2 : ∀ e ∈ events, 2 ≤ (splitSlash e.subject.data).length :=
    fun e he => two_parts_of_valid (hvalid e he)
  obtain ⟨groups, hgrp, hkeys, hprov⟩ := groupEventsGo_spec events [] hv2
  have hgrp' : groupEventsByStreamSubject events = .ok groups := hgrp
  have hkeys' : groups.map Prod.fst = distinctStreamSubjectsIn events := by
    rw [hkeys]; rfl
  have hcolls : ∀ g ∈ groups, ∃ n, getCollectionNameFromSubject g.1 = .ok n := by
    intro g hg
    rcases hprov g.1 (List.mem_map_of_mem Prod.fst hg) with h | ⟨e, he, hk⟩
    · simp at h
    · rw [hk]
      exact collectionName_of_valid (hvalid e he)
  have hieF : events.isEmpty = false := List.isEmpty_eq_false.mpr hne
  cases groups with
  | nil =>
    exfalso
    cases events with
    | nil => exact hne rfl
    | cons e rest =>
      have hfold := hkeys.symm
      rw [List.map_cons, List.foldl_cons, List.map_nil] at hfold
      rw [if_neg (by simp), List.nil_append] at hfold
      obtain ⟨t, ht⟩ := dedupFold_extends (rest.map fun e => streamSubjectOfSubject e.subject)
        [streamSubjectOfSubject e.subject]
      rw [ht] at hfold
      simp at hfold
  | cons g1 gs =>
    cases gs with
    | nil =>
      obtain ⟨ss, es⟩ := g1
      obtain ⟨n, hn⟩ := hcolls (ss, es) (List.mem_cons_self _ _)
      set doc := processStreamInTransaction now uuidSeed ss es
        (findDocIn (getColl st n) ss) projections with hdoc
      refine ⟨⟨[doc], events.length, [ss]⟩,
        putColl st n (putDocIn (getColl st n) doc),
        [.startSession, .startTransaction] ++ processStreamOps projections n ss
          ++ [.commitTransaction, .endSession],
        ?_, rfl, ?_⟩
      · simp only [appendOrCreateStream, hieF, Bool.false_eq_true, if_false, hgrp', hn]
      · simpa using hkeys'
    | cons g2 gs' =>
      obtain ⟨docs, st', ops, hrun⟩ := runGroups_ok projections now (g1 :: g2 :: gs')
        uuidSeed st hcolls
      refine ⟨⟨docs, events.length, (g1 :: g2 :: gs').map Prod.fst⟩,
        st', [.startSession, .startTransaction] ++ ops ++ [.commitTransaction, .endSession],
        ?_, rfl, ?_⟩
      · simp only [appendOrCreateStream, hieF, Bool.false_eq_true, if_false, hgrp', hrun]
      · exact hkeys'

/-- Witness for C2: a two-event single-stream batch. -/
theorem C2_append_result_witness :
    ∃ r st' ops, appendOrCreateStream [] 0 0 [sampleEventA, sampleEventB] []
        = (.ok r, st', ops)
      ∧ r.totalEventsAppended = [sampleEventA, sampleEventB].length
      ∧ r.streamSubjects = distinctStreamSubjectsIn [sampleEventA, sampleEventB] :=
  C2_append_result [] 0 0 [sampleEventA, sampleEventB] [] (by decide) (by decide)

end Vorfall
